import Mathlib

/-! Byte-order helpers of `libs/Endianness/endianness.h`.

A shallow embedding of the C header `src/libs/Endianness/endianness.h` and the
properties of its functions.

* Memory is a list of bytes; a byte is an 8-bit pattern (`Fin 256`).
* A C call that would access memory outside an object, or read an element of the
  scratch array that was never written, has undefined behaviour; the embedding
  makes this explicit: every function that touches memory returns
  `Except Fault _`, and `Except.error` is *undefined behaviour*, not an error the
  C code reports (the C functions return `void` and report nothing).
* The executing machine is a parameter (`Host`): its byte order and the `sizeof`
  of the scalar types, neither of which is fixed by the header.
-/

namespace Endianness

/-! ## Memory model -/

/-- One `char` of memory, as its 8-bit pattern. -/
abbrev Byte := Fin 256

/-- Undefined behaviour the C code can run into. -/
inductive Fault where
  /-- Access to `result[i]` with `i` outside `char result[32]`. -/
  | scratchOutOfBounds (i : Nat)
  /-- Access to `((char*)value)[i]` outside the object `value` points to. -/
  | valueOutOfBounds (i : Int)
  /-- Read of `result[i]` before anything was stored there. -/
  | scratchUninitialised (i : Nat)
  deriving DecidableEq, Repr

deriving instance DecidableEq for Except

/-- The local array `char result[32]`: 32 cells, `none` while indeterminate. -/
abbrev Scratch := List (Option Byte)

/-- Number of elements of `char result[32]`. -/
def scratchCapacity : Nat := 32

/-- The array `result` right after its declaration: nothing stored yet. -/
def freshScratch : Scratch := List.replicate scratchCapacity none

/-- The read `((char*)value)[idx]`. -/
def readValue (value : List Byte) (idx : Int) : Except Fault Byte :=
  if idx < 0 then .error (.valueOutOfBounds idx)
  else
    match value[idx.toNat]? with
    | some c => .ok c
    | none => .error (.valueOutOfBounds idx)

/-- The write `((char*)value)[i] = c`. -/
def writeValue (value : List Byte) (i : Nat) (c : Byte) : Except Fault (List Byte) :=
  if i < value.length then .ok (value.set i c) else .error (.valueOutOfBounds i)

/-- The read `result[i]`. -/
def readScratch (result : Scratch) (i : Nat) : Except Fault Byte :=
  match result[i]? with
  | some (some c) => .ok c
  | some none => .error (.scratchUninitialised i)
  | none => .error (.scratchOutOfBounds i)

/-- The write `result[i] = c`. -/
def writeScratch (result : Scratch) (i : Nat) (c : Byte) : Except Fault Scratch :=
  if i < result.length then .ok (result.set i (some c)) else .error (.scratchOutOfBounds i)

/-! ## The host -/

/-- The executing machine: its byte order and the sizes of the scalar types.
`sizeof(char)` is 1 by definition.  With 8-bit bytes an `int` (at least 16 value
bits) occupies at least two bytes, which `int_wide` records. -/
structure Host where
  /-- Multi-byte scalars are stored most-significant byte first. -/
  bigEndian : Bool
  sizeofShort : Nat
  sizeofInt : Nat
  sizeofLong : Nat
  sizeofFloat : Nat
  sizeofDouble : Nat
  int_wide : 2 ≤ sizeofInt

/-- The `w` low-order bytes of the bit pattern `v`, least significant first. -/
def bytesLE : Nat → Nat → List Byte
  | 0, _ => []
  | w + 1, v => ⟨v % 256, Nat.mod_lt v (by decide)⟩ :: bytesLE w (v / 256)

/-- The bit pattern whose bytes, least significant first, are the given ones. -/
def valueLE : List Byte → Nat
  | [] => 0
  | c :: cs => c.val + 256 * valueLE cs

/-- Object representation: the bytes, lowest address first, that a scalar of `w`
bytes with bit pattern `v` occupies in the memory of host `h` (what `(char*)&copy`
points to). -/
def objectRepr (h : Host) (w v : Nat) : List Byte :=
  if h.bigEndian then (bytesLE w v).reverse else bytesLE w v

/-- The bit pattern of the scalar that occupies the given bytes on host `h` (what
reading `copy` yields). -/
def objectValue (h : Host) (bytes : List Byte) : Nat :=
  if h.bigEndian then valueLE bytes.reverse else valueLE bytes

/-! ## The functions of the header -/

/-- The C function `isBigEndian`: `int test = 1; char *p = (char*)&test; return p[0] == 0;`. -/
def isBigEndian (h : Host) : Int :=
  let test : Nat := 1
  let p := objectRepr h h.sizeofInt test
  if p[0]? = some 0 then 1 else 0

/-- Body of the first loop of `reverseEndianness`, at counter `i`:
`result[i] = ((char*)value)[size-i-1];`. -/
def copyOutStep (size : Int) (value : List Byte) (result : Scratch) (i : Nat) :
    Except Fault Scratch := do
  let c ← readValue value (size - i - 1)
  writeScratch result i c

/-- Body of the second loop of `reverseEndianness`, at counter `i`:
`((char*)value)[i] = result[i];`. -/
def copyBackStep (result : Scratch) (value : List Byte) (i : Nat) :
    Except Fault (List Byte) := do
  let c ← readScratch result i
  writeValue value i c

/-- The scratch array after the iterations `i = 0, …, k-1` of the first loop
`for( i=0; i<size; i+=1 )`, starting from the fresh array. -/
def copyOut (size : Int) (value : List Byte) : Nat → Except Fault Scratch
  | 0 => .ok freshScratch
  | k + 1 => do
    let result ← copyOut size value k
    copyOutStep size value result k

/-- The caller's memory after the iterations `i = 0, …, k-1` of the second loop
`for( i=0; i<size; i+=1 )`. -/
def copyBack (result : Scratch) (value : List Byte) : Nat → Except Fault (List Byte)
  | 0 => .ok value
  | k + 1 => do
    let value ← copyBack result value k
    copyBackStep result value k

/-- The C function `reverseEndianness(size, value)`; `value` is the memory the
pointer refers to, the result is that memory after the call.  Each loop runs for
`i = 0, 1, …` while `i < size`, that is `size.toNat` times (none when
`size ≤ 0`); a loop that would run more than 32 times stops at `i = 32` with
undefined behaviour, long before the `int` counter could overflow. -/
def reverseEndianness (size : Int) (value : List Byte) : Except Fault (List Byte) := do
  let result ← copyOut size value size.toNat
  copyBack result value size.toNat

/-- The C function `toBigEndian(size, value)`: `if( ! isBigEndian() ) reverseEndianness(size,value);`. -/
def toBigEndian (h : Host) (size : Int) (value : List Byte) : Except Fault (List Byte) :=
  if isBigEndian h = 0 then reverseEndianness size value else .ok value

/-- The C function `toLittleEndian(size, value)`: `if( isBigEndian() ) reverseEndianness(size,value);`. -/
def toLittleEndian (h : Host) (size : Int) (value : List Byte) : Except Fault (List Byte) :=
  if isBigEndian h ≠ 0 then reverseEndianness size value else .ok value

/-- Common shape of the `bigEndian…` wrappers for a scalar type of `w` bytes:
`T copy = value; toBigEndian(sizeof(T),(void*)&copy); return copy;`.  The
argument is passed by value, so the caller's object is out of reach. -/
def bigEndianScalar (h : Host) (w : Nat) (value : Nat) : Except Fault Nat := do
  let copy := objectRepr h w value
  let copy ← toBigEndian h w copy
  pure (objectValue h copy)

/-- Common shape of the `litEndian…` wrappers for a scalar type of `w` bytes:
`T copy = value; toLittleEndian(sizeof(T),(void*)&copy); return copy;`. -/
def litEndianScalar (h : Host) (w : Nat) (value : Nat) : Except Fault Nat := do
  let copy := objectRepr h w value
  let copy ← toLittleEndian h w copy
  pure (objectValue h copy)

/-- The C function `bigEndianChar`, on the bit pattern of its argument. -/
def bigEndianChar (h : Host) (value : Nat) : Except Fault Nat := bigEndianScalar h 1 value
/-- The C function `litEndianChar`. -/
def litEndianChar (h : Host) (value : Nat) : Except Fault Nat := litEndianScalar h 1 value
/-- The C function `bigEndianInt`. -/
def bigEndianInt (h : Host) (value : Nat) : Except Fault Nat := bigEndianScalar h h.sizeofInt value
/-- The C function `litEndianInt`. -/
def litEndianInt (h : Host) (value : Nat) : Except Fault Nat := litEndianScalar h h.sizeofInt value
/-- The C function `bigEndianShort`. -/
def bigEndianShort (h : Host) (value : Nat) : Except Fault Nat := bigEndianScalar h h.sizeofShort value
/-- The C function `litEndianShort`. -/
def litEndianShort (h : Host) (value : Nat) : Except Fault Nat := litEndianScalar h h.sizeofShort value
/-- The C function `bigEndianLong`. -/
def bigEndianLong (h : Host) (value : Nat) : Except Fault Nat := bigEndianScalar h h.sizeofLong value
/-- The C function `litEndianLong`. -/
def litEndianLong (h : Host) (value : Nat) : Except Fault Nat := litEndianScalar h h.sizeofLong value
/-- The C function `bigEndianFloat`, on the bit pattern of the `float`. -/
def bigEndianFloat (h : Host) (value : Nat) : Except Fault Nat := bigEndianScalar h h.sizeofFloat value
/-- The C function `litEndianFloat`. -/
def litEndianFloat (h : Host) (value : Nat) : Except Fault Nat := litEndianScalar h h.sizeofFloat value
/-- The C function `bigEndianDouble`, on the bit pattern of the `double`. -/
def bigEndianDouble (h : Host) (value : Nat) : Except Fault Nat := bigEndianScalar h h.sizeofDouble value
/-- The C function `litEndianDouble`. -/
def litEndianDouble (h : Host) (value : Nat) : Except Fault Nat := litEndianScalar h h.sizeofDouble value

/-! ## Concrete hosts -/

/-- A little-endian host with 2/4/8-byte `short`/`int`/`long` and IEEE `float`/`double`. -/
def littleHost : Host := ⟨false, 2, 4, 8, 4, 8, by decide⟩

/-- A big-endian host with the same sizes. -/
def bigHost : Host := ⟨true, 2, 4, 8, 4, 8, by decide⟩

/-- The sizes the typed wrappers are described with: `short` 2, `int` 4, `long` 8,
`float` 4 and `double` 8 bytes. -/
def Host.usualSizes (h : Host) : Prop :=
  h.sizeofShort = 2 ∧ h.sizeofInt = 4 ∧ h.sizeofLong = 8 ∧ h.sizeofFloat = 4 ∧ h.sizeofDouble = 8


/-- The result `res` of a typed wrapper is a value of the `w`-byte type whose object
representation on host `h` is that of `v` with the bytes in reverse order. -/
def ReversedRepr (h : Host) (w v : Nat) (res : Except Fault Nat) : Prop :=
  ∃ r, res = .ok r ∧ r < 256 ^ w ∧ objectRepr h w r = (objectRepr h w v).reverse

/-- The six typed wrapper pairs of the header on host `h`, each with the `sizeof` of
its type: `char`, `short int`, `int`, `long int`, `float`, `double`. -/
def typedWrappers (h : Host) :
    List (Nat × (Nat → Except Fault Nat) × (Nat → Except Fault Nat)) :=
  [(1, bigEndianChar h, litEndianChar h),
   (h.sizeofShort, bigEndianShort h, litEndianShort h),
   (h.sizeofInt, bigEndianInt h, litEndianInt h),
   (h.sizeofLong, bigEndianLong h, litEndianLong h),
   (h.sizeofFloat, bigEndianFloat h, litEndianFloat h),
   (h.sizeofDouble, bigEndianDouble h, litEndianDouble h)]

/-- Exchange of the bytes at positions `i` and `j` of a buffer (nothing happens
when a position lies outside it). -/
def swapAt (b : List Byte) (i j : Nat) : List Byte :=
  match b[i]?, b[j]? with
  | some x, some y => (b.set i y).set j x
  | _, _ => b

/-- The in-place midpoint-swap rule in the words of the specification, for a
buffer of `n` bytes: for every `i < n / 2` (integer division), in turn, the bytes
at positions `i` and `n-1-i` are exchanged; the middle byte of an odd-length
buffer is never touched. -/
def midpointSwap (n : Nat) (b : List Byte) : List Byte :=
  (List.range (n / 2)).foldl (fun acc i => swapAt acc i (n - 1 - i)) b

/-! ## The two loops -/

/-- The first loop, run `k ≤ size` times on a buffer holding at least `size` bytes
and with `k` within the scratch capacity, stores `value[size-1-j]` in `result[j]`
for every `j < k`. -/
theorem copyOut_ok (n : Nat) (value : List Byte) (hn : n ≤ value.length) :
    ∀ k, k ≤ n → k ≤ scratchCapacity →
      ∃ r, copyOut (n : Int) value k = .ok r ∧ r.length = scratchCapacity ∧
        ∀ j, j < k → r[j]? = some (value[n - 1 - j]?) := by
  intro k
  induction k with
  | zero =>
    intro _ _
    exact ⟨freshScratch, rfl, by simp [freshScratch], fun j hj => absurd hj (Nat.not_lt_zero j)⟩
  | succ k ih =>
    intro hk hcap
    obtain ⟨r, hr, hlen, hget⟩ := ih (by omega) (by omega)
    have hidx : ((n : Int) - (k : Int) - 1) = ((n - 1 - k : Nat) : Int) := by omega
    have hlt : n - 1 - k < value.length := by omega
    have hc : value[n - 1 - k]? = some value[n - 1 - k] := List.getElem?_eq_getElem hlt
    refine ⟨r.set k (some value[n - 1 - k]), ?_, ?_, ?_⟩
    · have hk32 : k < r.length := by omega
      have hnn : ¬ (((n - 1 - k : Nat) : Int) < 0) := by omega
      simp only [copyOut, hr, copyOutStep, readValue, hidx]
      simp [bind, Except.bind, hc, writeScratch, hk32, hnn]
    · simpa using hlen
    · intro j hj
      by_cases hjk : j = k
      · subst hjk
        rw [List.getElem?_set_self (by omega), hc]
      · rw [List.getElem?_set_ne (fun h => hjk h.symm)]
        exact hget j (by omega)

/-- The second loop, run `k` times with a scratch array whose first `k` cells are
written, overwrites `value[j]` with `result[j]` for every `j < k` and leaves the
rest of the buffer alone. -/
theorem copyBack_ok (r : Scratch) (f : Nat → Option Byte) (value : List Byte) :
    ∀ k, k ≤ value.length → (∀ j, j < k → ∃ c, f j = some c ∧ r[j]? = some (some c)) →
      ∃ v, copyBack r value k = .ok v ∧ v.length = value.length ∧
        ∀ j, v[j]? = if j < k then f j else value[j]? := by
  intro k
  induction k with
  | zero =>
    intro _ _
    exact ⟨value, rfl, rfl, fun j => by simp⟩
  | succ k ih =>
    intro hk hr
    obtain ⟨v, hv, hlen, hget⟩ := ih (by omega) (fun j hj => hr j (by omega))
    obtain ⟨c, hfc, hrc⟩ := hr k (by omega)
    refine ⟨v.set k c, ?_, ?_, ?_⟩
    · have hkv : k < v.length := by omega
      simp only [copyBack, hv, copyBackStep, readScratch]
      simp [bind, Except.bind, hrc, writeValue, hkv]
    · simpa using hlen
    · intro j
      by_cases hjk : j = k
      · subst hjk
        rw [List.getElem?_set_self (by omega)]
        simp [hfc]
      · rw [List.getElem?_set_ne (fun h => hjk h.symm), hget j]
        by_cases hlt : j < k
        · simp [hlt, show j < k + 1 by omega]
        · simp [hlt, show ¬ j < k + 1 by omega]

/-- On a buffer of at least `n` bytes, with `n` within the scratch capacity,
`reverseEndianness` runs without undefined behaviour and leaves the first `n`
bytes reversed and the remaining bytes as they were. -/
theorem reverseEndianness_eq (n : Nat) (value : List Byte) (hn : n ≤ value.length)
    (hcap : n ≤ scratchCapacity) :
    reverseEndianness (n : Int) value = .ok ((value.take n).reverse ++ value.drop n) := by
  obtain ⟨r, hr, _, hrget⟩ := copyOut_ok n value hn n (le_refl n) hcap
  obtain ⟨v, hv, hvlen, hvget⟩ := copyBack_ok r (fun j => value[n - 1 - j]?) value n hn
    (fun j hj => ⟨value[n - 1 - j], List.getElem?_eq_getElem (by omega), by
      rw [hrget j hj, List.getElem?_eq_getElem (by omega)]⟩)
  have hres : reverseEndianness (n : Int) value = .ok v := by
    simp only [reverseEndianness, Int.toNat_ofNat, hr]
    simpa [bind, Except.bind] using hv
  rw [hres]
  congr 1
  apply List.ext_getElem?
  intro j
  rw [hvget j]
  by_cases hj : j < n
  · have h1 : j < (value.take n).reverse.length := by simp; omega
    rw [if_pos hj, List.getElem?_append_left h1, List.getElem?_reverse (by simpa using h1),
      List.getElem?_take]
    simp only [List.length_take]
    rw [Nat.min_eq_left hn, if_pos (by omega)]
  · have h1 : (value.take n).reverse.length ≤ j := by simp; omega
    rw [if_neg hj, List.getElem?_append_right h1, List.getElem?_drop]
    simp only [List.length_reverse, List.length_take, Nat.min_eq_left hn]
    congr 1
    omega

/-- A buffer of exactly `n ≤ 32` bytes comes back reversed. -/
theorem reverseEndianness_exact (n : Nat) (b : List Byte) (hb : b.length = n)
    (hcap : n ≤ scratchCapacity) : reverseEndianness (n : Int) b = .ok b.reverse := by
  rw [reverseEndianness_eq n b (by omega) hcap]
  subst hb
  simp

/-! ## Object representations -/

theorem bytesLE_length (w v : Nat) : (bytesLE w v).length = w := by
  induction w generalizing v with
  | zero => rfl
  | succ w ih => simp [bytesLE, ih]

theorem bytesLE_zero (w : Nat) : bytesLE w 0 = List.replicate w 0 := by
  induction w with
  | zero => rfl
  | succ w ih =>
    simp only [bytesLE, Nat.zero_div, ih, List.replicate_succ]
    rfl

theorem valueLE_bytesLE (w v : Nat) : valueLE (bytesLE w v) = v % 256 ^ w := by
  induction w generalizing v with
  | zero => simp [bytesLE, valueLE, Nat.mod_one]
  | succ w ih =>
    simp only [bytesLE, valueLE, ih]
    rw [pow_succ', Nat.mod_mul]

theorem bytesLE_valueLE (bs : List Byte) : bytesLE bs.length (valueLE bs) = bs := by
  induction bs with
  | nil => rfl
  | cons c cs ih =>
    have hc : c.val < 256 := c.isLt
    have h1 : (c.val + 256 * valueLE cs) % 256 = c.val := by omega
    have h2 : (c.val + 256 * valueLE cs) / 256 = valueLE cs := by omega
    simp only [List.length_cons, bytesLE, valueLE, h1, h2, ih]

theorem objectRepr_length (h : Host) (w v : Nat) : (objectRepr h w v).length = w := by
  unfold objectRepr
  split <;> simp [bytesLE_length]

theorem objectValue_objectRepr (h : Host) (w v : Nat) :
    objectValue h (objectRepr h w v) = v % 256 ^ w := by
  unfold objectValue objectRepr
  split <;> simp [valueLE_bytesLE]

theorem objectRepr_objectValue (h : Host) (bs : List Byte) :
    objectRepr h bs.length (objectValue h bs) = bs := by
  unfold objectValue objectRepr
  split
  · have := bytesLE_valueLE bs.reverse
    rw [List.length_reverse] at this
    rw [this, List.reverse_reverse]
  · exact bytesLE_valueLE bs

theorem objectValue_lt (h : Host) (bs : List Byte) : objectValue h bs < 256 ^ bs.length := by
  have := objectValue_objectRepr h bs.length (objectValue h bs)
  rw [objectRepr_objectValue] at this
  rw [this]
  exact Nat.mod_lt _ (by positivity)

/-- The value `isBigEndian` returns is 1 on a big-endian host and 0 on a
little-endian one. -/
theorem isBigEndian_eq (h : Host) : isBigEndian h = if h.bigEndian then 1 else 0 := by
  obtain ⟨w, hw⟩ : ∃ w, h.sizeofInt = w + 2 := ⟨h.sizeofInt - 2, by have := h.int_wide; omega⟩
  unfold isBigEndian objectRepr
  simp only [hw]
  cases h.bigEndian
  · simp [bytesLE]
  · have h0 : bytesLE (w + 2) 1 = 1 :: 0 :: bytesLE w 0 := rfl
    have h1 : ((1 : Byte) :: 0 :: List.replicate w 0).reverse
        = 0 :: (List.replicate w 0 ++ [1]) := by
      rw [List.reverse_cons, ← List.replicate_succ, List.reverse_replicate, List.replicate_succ]
      rfl
    rw [h0, bytesLE_zero, h1]
    simp

/-! ## The directional converters and the typed wrappers -/

theorem toBigEndian_little (h : Host) (hh : h.bigEndian = false) (size : Int)
    (value : List Byte) : toBigEndian h size value = reverseEndianness size value := by
  simp [toBigEndian, isBigEndian_eq, hh]

theorem toBigEndian_big (h : Host) (hh : h.bigEndian = true) (size : Int)
    (value : List Byte) : toBigEndian h size value = .ok value := by
  simp [toBigEndian, isBigEndian_eq, hh]

theorem toLittleEndian_little (h : Host) (hh : h.bigEndian = false) (size : Int)
    (value : List Byte) : toLittleEndian h size value = .ok value := by
  simp [toLittleEndian, isBigEndian_eq, hh]

theorem toLittleEndian_big (h : Host) (hh : h.bigEndian = true) (size : Int)
    (value : List Byte) : toLittleEndian h size value = reverseEndianness size value := by
  simp [toLittleEndian, isBigEndian_eq, hh]

/-- Reading back the reversed object representation of `v` gives a value of the
same type whose representation is the reversed one. -/
theorem reversedRepr_of_reverse (h : Host) (w v : Nat) :
    ReversedRepr h w v (.ok (objectValue h (objectRepr h w v).reverse)) := by
  have hlen : (objectRepr h w v).reverse.length = w := by
    rw [List.length_reverse, objectRepr_length]
  refine ⟨_, rfl, ?_, ?_⟩
  · have := objectValue_lt h (objectRepr h w v).reverse
    rwa [hlen] at this
  · have := objectRepr_objectValue h (objectRepr h w v).reverse
    rwa [hlen] at this

theorem bigEndianScalar_little (h : Host) (w v : Nat) (hh : h.bigEndian = false)
    (hw : w ≤ scratchCapacity) : ReversedRepr h w v (bigEndianScalar h w v) := by
  have : bigEndianScalar h w v = .ok (objectValue h (objectRepr h w v).reverse) := by
    simp only [bigEndianScalar, toBigEndian_little h hh,
      reverseEndianness_exact w _ (objectRepr_length h w v) hw]
    rfl
  rw [this]
  exact reversedRepr_of_reverse h w v

theorem bigEndianScalar_big (h : Host) (w v : Nat) (hh : h.bigEndian = true)
    (hv : v < 256 ^ w) : bigEndianScalar h w v = .ok v := by
  simp only [bigEndianScalar, toBigEndian_big h hh]
  show Except.ok (objectValue h (objectRepr h w v)) = Except.ok v
  rw [objectValue_objectRepr, Nat.mod_eq_of_lt hv]

theorem litEndianScalar_big (h : Host) (w v : Nat) (hh : h.bigEndian = true)
    (hw : w ≤ scratchCapacity) : ReversedRepr h w v (litEndianScalar h w v) := by
  have : litEndianScalar h w v = .ok (objectValue h (objectRepr h w v).reverse) := by
    simp only [litEndianScalar, toLittleEndian_big h hh,
      reverseEndianness_exact w _ (objectRepr_length h w v) hw]
    rfl
  rw [this]
  exact reversedRepr_of_reverse h w v

theorem litEndianScalar_little (h : Host) (w v : Nat) (hh : h.bigEndian = false)
    (hv : v < 256 ^ w) : litEndianScalar h w v = .ok v := by
  simp only [litEndianScalar, toLittleEndian_little h hh]
  show Except.ok (objectValue h (objectRepr h w v)) = Except.ok v
  rw [objectValue_objectRepr, Nat.mod_eq_of_lt hv]

/-- Every entry of `typedWrappers` is the common wrapper shape at the entry's size,
and with the usual sizes that size is at most 8. -/
theorem typedWrappers_shape (h : Host) (hs : h.usualSizes) (w : Nat)
    (big lit : Nat → Except Fault Nat) (hp : (w, big, lit) ∈ typedWrappers h) :
    w ≤ 8 ∧ big = bigEndianScalar h w ∧ lit = litEndianScalar h w := by
  obtain ⟨h2, h4, h8, hf, hd⟩ := hs
  simp only [typedWrappers, List.mem_cons, Prod.mk.injEq, List.mem_singleton, List.mem_nil_iff,
    or_false] at hp
  rcases hp with hp | hp | hp | hp | hp | hp <;> obtain ⟨hw, hbig, hlit⟩ := hp <;>
    subst hw hbig hlit <;> exact ⟨by omega, rfl, rfl⟩

/-- On either host exactly one of the two wrappers of a pair reverses, so the
`litEndian…` wrapper applied to the result of the `bigEndian…` wrapper yields the
byte-reversed value. -/
theorem litEndianScalar_bigEndianScalar (h : Host) (w v : Nat) (hw : w ≤ scratchCapacity)
    (hv : v < 256 ^ w) : ReversedRepr h w v (bigEndianScalar h w v >>= litEndianScalar h w) := by
  cases hh : h.bigEndian
  · obtain ⟨r, hr, hlt, hrepr⟩ := bigEndianScalar_little h w v hh hw
    refine ⟨r, ?_, hlt, hrepr⟩
    rw [hr]
    exact litEndianScalar_little h w r hh hlt
  · rw [bigEndianScalar_big h w v hh hv]
    exact litEndianScalar_big h w v hh hw

/-- A value of the `w`-byte type is determined by its object representation. -/
theorem objectRepr_injective (h : Host) (w r v : Nat) (hr : r < 256 ^ w) (hv : v < 256 ^ w)
    (heq : objectRepr h w r = objectRepr h w v) : r = v := by
  have h1 := objectValue_objectRepr h w r
  have h2 := objectValue_objectRepr h w v
  rw [heq, h2, Nat.mod_eq_of_lt hv, Nat.mod_eq_of_lt hr] at h1
  exact h1.symm

/-- A byte-reversed result equals the input exactly when the input's bytes read
the same in both directions. -/
theorem reversedRepr_eq_iff (h : Host) (w v : Nat) (res : Except Fault Nat)
    (hres : ReversedRepr h w v res) (hv : v < 256 ^ w) :
    res = .ok v ↔ (objectRepr h w v).reverse = objectRepr h w v := by
  obtain ⟨r, hr, hlt, hrepr⟩ := hres
  subst hr
  constructor
  · intro heq
    have hrv : r = v := by injection heq
    rw [← hrepr, hrv]
  · intro hpal
    rw [hpal] at hrepr
    rw [objectRepr_injective h w r v hlt hv hrepr]

/-- The same `bigEndian…` wrapper applied twice returns the value it started from. -/
theorem bigEndianScalar_twice (h : Host) (w v : Nat) (hw : w ≤ scratchCapacity)
    (hv : v < 256 ^ w) : (bigEndianScalar h w v >>= bigEndianScalar h w) = .ok v := by
  cases hh : h.bigEndian
  · obtain ⟨r, hr, hlt, hrepr⟩ := bigEndianScalar_little h w v hh hw
    obtain ⟨r2, hr2, hlt2, hrepr2⟩ := bigEndianScalar_little h w r hh hw
    rw [hr]
    show bigEndianScalar h w r = .ok v
    rw [hr2]
    rw [hrepr, List.reverse_reverse] at hrepr2
    rw [objectRepr_injective h w r2 v hlt2 hv hrepr2]
  · rw [bigEndianScalar_big h w v hh hv]
    exact bigEndianScalar_big h w v hh hv

/-- The same `litEndian…` wrapper applied twice returns the value it started from. -/
theorem litEndianScalar_twice (h : Host) (w v : Nat) (hw : w ≤ scratchCapacity)
    (hv : v < 256 ^ w) : (litEndianScalar h w v >>= litEndianScalar h w) = .ok v := by
  cases hh : h.bigEndian
  · rw [litEndianScalar_little h w v hh hv]
    exact litEndianScalar_little h w v hh hv
  · obtain ⟨r, hr, hlt, hrepr⟩ := litEndianScalar_big h w v hh hw
    obtain ⟨r2, hr2, hlt2, hrepr2⟩ := litEndianScalar_big h w r hh hw
    rw [hr]
    show litEndianScalar h w r = .ok v
    rw [hr2]
    rw [hrepr, List.reverse_reverse] at hrepr2
    rw [objectRepr_injective h w r2 v hlt2 hv hrepr2]

/-! ## The midpoint-swap rule -/

/-- After the first `k` exchanges of the midpoint-swap rule the `k` outermost bytes
on either side have traded places and the bytes between them are untouched. -/
theorem midpointSwap_prefix (n : Nat) (b : List Byte) (hb : b.length = n) :
    ∀ k, 2 * k ≤ n →
      ((List.range k).foldl (fun acc i => swapAt acc i (n - 1 - i)) b).length = n ∧
      ∀ j, j < n → ((List.range k).foldl (fun acc i => swapAt acc i (n - 1 - i)) b)[j]? =
        if j < k ∨ n - k ≤ j then b[n - 1 - j]? else b[j]? := by
  intro k
  induction k with
  | zero =>
    intro _
    refine ⟨by simpa using hb, fun j hj => ?_⟩
    have hno : ¬ (j < 0 ∨ n - 0 ≤ j) := by omega
    rw [if_neg hno]
    rfl
  | succ k ih =>
    intro hk
    obtain ⟨hlen, hget⟩ := ih (by omega)
    rw [List.range_succ, List.foldl_append]
    generalize (List.range k).foldl (fun acc i => swapAt acc i (n - 1 - i)) b = acc at hlen hget
    have hx : acc[k]? = some b[k] := by
      rw [hget k (by omega), if_neg (by omega), List.getElem?_eq_getElem (by omega)]
    have hy : acc[n - 1 - k]? = some b[n - 1 - k] := by
      rw [hget (n - 1 - k) (by omega), if_neg (by omega), List.getElem?_eq_getElem (by omega)]
    have hstep : [k].foldl (fun acc i => swapAt acc i (n - 1 - i)) acc
        = (acc.set k b[n - 1 - k]).set (n - 1 - k) b[k] := by
      simp only [List.foldl_cons, List.foldl_nil, swapAt, hx, hy]
    rw [hstep]
    refine ⟨by simpa using hlen, fun j hj => ?_⟩
    by_cases h1 : j = n - 1 - k
    · subst h1
      rw [List.getElem?_set_self (by simp; omega), if_pos (by omega),
        List.getElem?_eq_getElem (by omega)]
      congr 2
      omega
    · rw [List.getElem?_set_ne (fun h => h1 h.symm)]
      by_cases h2 : j = k
      · subst h2
        rw [List.getElem?_set_self (by omega), if_pos (by omega),
          List.getElem?_eq_getElem (by omega)]
      · rw [List.getElem?_set_ne (fun h => h2 h.symm), hget j hj]
        by_cases h3 : j < k ∨ n - k ≤ j
        · rw [if_pos h3, if_pos (by omega)]
        · rw [if_neg h3, if_neg (by omega)]

/-- The midpoint-swap rule reverses a buffer of `n` bytes. -/
theorem midpointSwap_eq_reverse (n : Nat) (b : List Byte) (hb : b.length = n) :
    midpointSwap n b = b.reverse := by
  obtain ⟨hlen, hget⟩ := midpointSwap_prefix n b hb (n / 2) (by omega)
  apply List.ext_getElem?
  intro j
  by_cases hj : j < n
  · show ((List.range (n / 2)).foldl (fun acc i => swapAt acc i (n - 1 - i)) b)[j]? = _
    rw [hget j hj, List.getElem?_reverse (by omega), hb]
    by_cases h3 : j < n / 2 ∨ n - n / 2 ≤ j
    · rw [if_pos h3]
    · rw [if_neg h3]
      congr 1
      omega
  · rw [List.getElem?_eq_none (by unfold midpointSwap; omega),
      List.getElem?_eq_none (by simp; omega)]

/-! ## Beyond the scratch capacity -/

/-- Once the first loop has run into undefined behaviour it stays there. -/
theorem copyOut_error_mono (size : Int) (value : List Byte) (e : Fault) (k : Nat)
    (hk : copyOut size value k = .error e) :
    ∀ m, k ≤ m → copyOut size value m = .error e := by
  intro m
  induction m with
  | zero =>
    intro hm
    have : k = 0 := by omega
    subst this
    exact hk
  | succ m ih =>
    intro hm
    by_cases hkm : k = m + 1
    · subst hkm
      exact hk
    · have hprev := ih (by omega)
      simp only [copyOut, hprev]
      rfl

/-- An iteration of the first loop whose counter lies outside the scratch array
reads its byte and then stores out of bounds. -/
theorem copyOutStep_overflow (n : Nat) (value : List Byte) (r : Scratch) (k : Nat)
    (hn : n ≤ value.length) (hk : k < n) (hr : r.length ≤ k) :
    copyOutStep (n : Int) value r k = .error (.scratchOutOfBounds k) := by
  have hidx : ((n : Int) - (k : Int) - 1) = ((n - 1 - k : Nat) : Int) := by omega
  have hnn : ¬ (((n - 1 - k : Nat) : Int) < 0) := by omega
  have hc : value[n - 1 - k]? = some value[n - 1 - k] := List.getElem?_eq_getElem (by omega)
  have hlt : ¬ (k < r.length) := by omega
  simp only [copyOutStep, readValue, hidx]
  simp [bind, Except.bind, hc, writeScratch, hlt, hnn]

/-- On a buffer holding at least `n ≥ 33` bytes the first loop completes its
iterations `i = 0, …, 31` and at `i = 32` stores outside `char result[32]`. -/
theorem copyOut_overflow (n : Nat) (value : List Byte) (hn : n ≤ value.length)
    (h33 : 33 ≤ n) :
    (∃ r, copyOut (n : Int) value 32 = .ok r) ∧
    copyOut (n : Int) value 33 = .error (.scratchOutOfBounds 32) := by
  obtain ⟨r, hr, hlen, _⟩ := copyOut_ok n value hn 32 (by omega) (by decide)
  refine ⟨⟨r, hr⟩, ?_⟩
  have hstep : copyOut (n : Int) value 33
      = (copyOut (n : Int) value 32 >>= fun res => copyOutStep (n : Int) value res 32) := rfl
  rw [hstep, hr]
  exact copyOutStep_overflow n value r 32 hn (by omega) (by rw [hlen]; decide)

/-- A request for `n ≥ 33` bytes on a buffer holding at least `n` bytes runs into
the store to `result[32]`. -/
theorem reverseEndianness_overflow (n : Nat) (value : List Byte) (hn : n ≤ value.length)
    (h33 : 33 ≤ n) : reverseEndianness (n : Int) value = .error (.scratchOutOfBounds 32) := by
  have h := copyOut_error_mono (n : Int) value _ 33 (copyOut_overflow n value hn h33).2 n h33
  simp only [reverseEndianness, Int.toNat_ofNat, h]
  rfl

/-- With `size ≤ 32` and a buffer of at least `size` bytes the bytes from position
`size` on are where they were, and the length is kept. -/
theorem reverseEndianness_frame_aux (n : Nat) (b : List Byte) (hn : n ≤ 32)
    (hm : n ≤ b.length) :
    ∃ r, reverseEndianness (n : Int) b = .ok r ∧ r.length = b.length ∧
      ∀ j, n ≤ j → r[j]? = b[j]? := by
  refine ⟨_, reverseEndianness_eq n b hm (by simp only [scratchCapacity]; omega), ?_, ?_⟩
  · simp only [List.length_append, List.length_reverse, List.length_take, List.length_drop]
    omega
  · intro j hj
    have h1 : (b.take n).reverse.length ≤ j := by simp; omega
    rw [List.getElem?_append_right h1, List.getElem?_drop]
    simp only [List.length_reverse, List.length_take, Nat.min_eq_left hm]
    congr 1
    omega

/-! ## The claims -/

/-- C1: for every size `n ≤ 8` and buffer `b` of exactly `n` bytes,
`reverseEndianness(n, b)` completes, the buffer still has `n` bytes, and for every
index `i < n` the byte at position `i` is the byte that was at position `n-1-i`
before the call. -/
theorem reverseEndianness_spec (n : Nat) (b : List Byte) (hn : n ≤ 8) (hb : b.length = n) :
    ∃ b', reverseEndianness (n : Int) b = .ok b' ∧ b'.length = n ∧
      ∀ i, i < n → b'[i]? = b[n - 1 - i]? ∧ b'[i]? ≠ none := by
  refine ⟨b.reverse, reverseEndianness_exact n b hb (by simp only [scratchCapacity]; omega),
    by simpa using hb, ?_⟩
  intro i hi
  have h1 : b.reverse[i]? = b[n - 1 - i]? := by
    rw [List.getElem?_reverse (by omega), hb]
  refine ⟨h1, ?_⟩
  rw [h1, List.getElem?_eq_getElem (by omega)]
  exact Option.some_ne_none _

theorem reverseEndianness_spec_witness :
    (3 : Nat) ≤ 8 ∧ ([10, 20, 30] : List Byte).length = 3 ∧
    ∃ b', reverseEndianness ((3 : Nat) : Int) [10, 20, 30] = .ok b' ∧ b'.length = 3 ∧
      ∀ i, i < 3 → b'[i]? = ([10, 20, 30] : List Byte)[3 - 1 - i]? ∧ b'[i]? ≠ none :=
  ⟨by decide, rfl, reverseEndianness_spec 3 [10, 20, 30] (by decide) rfl⟩

/-- C2: for every size `n ≤ 8` and buffer `b` of `n` bytes, on a little-endian
host (`isBigEndian` returns 0) `toBigEndian(n, b)` leaves `b` as
`reverseEndianness(n, b)` does, namely reversed, and on a big-endian host
(`isBigEndian` returns nonzero) it leaves `b` unchanged. -/
theorem toBigEndian_spec (h : Host) (n : Nat) (b : List Byte) (hn : n ≤ 8)
    (hb : b.length = n) :
    (isBigEndian h = 0 →
      toBigEndian h n b = reverseEndianness n b ∧ toBigEndian h n b = .ok b.reverse) ∧
    (isBigEndian h ≠ 0 → toBigEndian h n b = .ok b) ∧
    (h.bigEndian = false → isBigEndian h = 0) ∧ (h.bigEndian = true → isBigEndian h ≠ 0) := by
  have hrev := reverseEndianness_exact n b hb (by simp only [scratchCapacity]; omega)
  refine ⟨fun h0 => ?_, fun h1 => ?_, fun hh => ?_, fun hh => ?_⟩
  · simp [toBigEndian, h0, hrev]
  · simp [toBigEndian, h1]
  · simp [isBigEndian_eq, hh]
  · simp [isBigEndian_eq, hh]

theorem toBigEndian_spec_witness :
    (4 : Nat) ≤ 8 ∧ ([1, 2, 3, 4] : List Byte).length = 4 ∧ isBigEndian littleHost = 0 ∧
    isBigEndian bigHost ≠ 0 ∧
    toBigEndian littleHost ((4 : Nat) : Int) [1, 2, 3, 4] = .ok [4, 3, 2, 1] ∧
    toBigEndian bigHost ((4 : Nat) : Int) [1, 2, 3, 4] = .ok [1, 2, 3, 4] :=
  ⟨by decide, rfl, by decide, by decide,
    ((toBigEndian_spec littleHost 4 [1, 2, 3, 4] (by decide) rfl).1 (by decide)).2,
    (toBigEndian_spec bigHost 4 [1, 2, 3, 4] (by decide) rfl).2.1 (by decide)⟩

/-- C3: for every size `n ≤ 8` and buffer `b` of `n` bytes, on a big-endian host
(`isBigEndian` returns nonzero) `toLittleEndian(n, b)` leaves `b` as
`reverseEndianness(n, b)` does, namely reversed, and on a little-endian host
(`isBigEndian` returns 0) it leaves `b` unchanged. -/
theorem toLittleEndian_spec (h : Host) (n : Nat) (b : List Byte) (hn : n ≤ 8)
    (hb : b.length = n) :
    (isBigEndian h ≠ 0 →
      toLittleEndian h n b = reverseEndianness n b ∧ toLittleEndian h n b = .ok b.reverse) ∧
    (isBigEndian h = 0 → toLittleEndian h n b = .ok b) ∧
    (h.bigEndian = false → isBigEndian h = 0) ∧ (h.bigEndian = true → isBigEndian h ≠ 0) := by
  have hrev := reverseEndianness_exact n b hb (by simp only [scratchCapacity]; omega)
  refine ⟨fun h1 => ?_, fun h0 => ?_, fun hh => ?_, fun hh => ?_⟩
  · simp [toLittleEndian, h1, hrev]
  · simp [toLittleEndian, h0]
  · simp [isBigEndian_eq, hh]
  · simp [isBigEndian_eq, hh]

theorem toLittleEndian_spec_witness :
    (2 : Nat) ≤ 8 ∧ ([171, 205] : List Byte).length = 2 ∧ isBigEndian bigHost ≠ 0 ∧
    isBigEndian littleHost = 0 ∧
    toLittleEndian bigHost ((2 : Nat) : Int) [171, 205] = .ok [205, 171] ∧
    toLittleEndian littleHost ((2 : Nat) : Int) [171, 205] = .ok [171, 205] :=
  ⟨by decide, rfl, by decide, by decide,
    ((toLittleEndian_spec bigHost 2 [171, 205] (by decide) rfl).1 (by decide)).2,
    (toLittleEndian_spec littleHost 2 [171, 205] (by decide) rfl).2.1 (by decide)⟩

/-- C4: `isBigEndian` returns a nonzero value exactly when the first
(lowest-address) byte of the `int` value 1 in the host's memory is 0, which is
exactly when the host is big-endian, and returns 0 exactly when that byte is 1,
which is exactly when the host is little-endian; the value returned is determined
by the host byte order alone (1 on a big-endian host, 0 on a little-endian one),
whatever the size of `int`. -/
theorem isBigEndian_spec (h : Host) :
    (isBigEndian h ≠ 0 ↔ (objectRepr h h.sizeofInt 1)[0]? = some 0) ∧
    (isBigEndian h = 0 ↔ (objectRepr h h.sizeofInt 1)[0]? = some 1) ∧
    (isBigEndian h ≠ 0 ↔ h.bigEndian = true) ∧
    (isBigEndian h = 0 ↔ h.bigEndian = false) ∧
    isBigEndian h = (if h.bigEndian then 1 else 0) := by
  have heq := isBigEndian_eq h
  have hfirst : (objectRepr h h.sizeofInt 1)[0]? = some 0 ∨
      (objectRepr h h.sizeofInt 1)[0]? = some 1 := by
    obtain ⟨w, hw⟩ : ∃ w, h.sizeofInt = w + 1 :=
      ⟨h.sizeofInt - 1, by have := h.int_wide; omega⟩
    by_cases hb : h.bigEndian = true
    · left
      have := heq
      rw [if_pos hb] at this
      unfold isBigEndian at this
      by_contra hne
      simp [hne] at this
    · right
      simp [objectRepr, hb, hw, bytesLE]
  have hdef : isBigEndian h = if (objectRepr h h.sizeofInt 1)[0]? = some 0 then 1 else 0 := rfl
  refine ⟨?_, ?_, ?_, ?_, heq⟩
  · rw [hdef]
    by_cases h0 : (objectRepr h h.sizeofInt 1)[0]? = some 0
    · simp [h0]
    · simp [h0]
  · rw [hdef]
    rcases hfirst with h0 | h1
    · simp [h0]
    · simp [h1]
  · rw [heq]; cases h.bigEndian <;> simp
  · rw [heq]; cases h.bigEndian <;> simp

/-- C5: on a host with the usual sizes (`char` 1, `short` 2, `int` 4, `long` 8,
`float` 4, `double` 8 bytes), for each typed wrapper pair and every value `v` of
its type: on a little-endian host `bigEndian_T(v)` returns the value whose byte
representation is the reversed representation of `v` and `litEndian_T(v)` returns
`v`; on a big-endian host `bigEndian_T(v)` returns `v` and `litEndian_T(v)` returns
the value with the reversed representation.  The wrappers take `v` by value and
hand back a new value, so nothing of the caller is modified. -/
theorem typedWrappers_spec (h : Host) (hs : h.usualSizes) (w : Nat)
    (big lit : Nat → Except Fault Nat) (hp : (w, big, lit) ∈ typedWrappers h)
    (v : Nat) (hv : v < 256 ^ w) :
    (typedWrappers h).map (fun p => p.1) = [1, 2, 4, 8, 4, 8] ∧
    (h.bigEndian = false → ReversedRepr h w v (big v) ∧ lit v = .ok v) ∧
    (h.bigEndian = true → big v = .ok v ∧ ReversedRepr h w v (lit v)) := by
  obtain ⟨hw, rfl, rfl⟩ := typedWrappers_shape h hs w big lit hp
  have hcap : w ≤ scratchCapacity := by simp only [scratchCapacity]; omega
  obtain ⟨h2, h4, h8, hf, hd⟩ := hs
  refine ⟨by simp [typedWrappers, h2, h4, h8, hf, hd], fun hh => ?_, fun hh => ?_⟩
  · exact ⟨bigEndianScalar_little h w v hh hcap, litEndianScalar_little h w v hh hv⟩
  · exact ⟨bigEndianScalar_big h w v hh hv, litEndianScalar_big h w v hh hcap⟩

theorem typedWrappers_spec_witness :
    littleHost.usualSizes ∧
    (4, bigEndianInt littleHost, litEndianInt littleHost) ∈ typedWrappers littleHost ∧
    (16909060 : Nat) < 256 ^ 4 ∧
    ReversedRepr littleHost 4 16909060 (bigEndianInt littleHost 16909060) ∧
    litEndianInt littleHost 16909060 = .ok 16909060 :=
  have hs : littleHost.usualSizes := ⟨rfl, rfl, rfl, rfl, rfl⟩
  have hp : (4, bigEndianInt littleHost, litEndianInt littleHost) ∈ typedWrappers littleHost :=
    List.mem_cons_of_mem _ (List.mem_cons_of_mem _ (List.mem_cons_self _ _))
  ⟨hs, hp, by decide,
    (typedWrappers_spec littleHost hs 4 _ _ hp 16909060 (by decide)).2.1 rfl⟩

/-- C6: for either host order, every size `n ≤ 8` and every buffer `b` of `n`
bytes, applying the same directional converter twice restores the original bytes:
`toBigEndian(n, toBigEndian(n, b)) = b` and
`toLittleEndian(n, toLittleEndian(n, b)) = b`. -/
theorem converter_twice (h : Host) (n : Nat) (b : List Byte) (hn : n ≤ 8)
    (hb : b.length = n) :
    (toBigEndian h n b >>= toBigEndian h n) = .ok b ∧
    (toLittleEndian h n b >>= toLittleEndian h n) = .ok b := by
  have hcap : n ≤ scratchCapacity := by simp only [scratchCapacity]; omega
  have h1 := reverseEndianness_exact n b hb hcap
  have h2 := reverseEndianness_exact n b.reverse (by simpa using hb) hcap
  rw [List.reverse_reverse] at h2
  cases hh : h.bigEndian
  · constructor
    · rw [toBigEndian_little h hh, h1]
      show toBigEndian h n b.reverse = .ok b
      rw [toBigEndian_little h hh, h2]
    · rw [toLittleEndian_little h hh]
      show toLittleEndian h n b = .ok b
      rw [toLittleEndian_little h hh]
  · constructor
    · rw [toBigEndian_big h hh]
      show toBigEndian h n b = .ok b
      rw [toBigEndian_big h hh]
    · rw [toLittleEndian_big h hh, h1]
      show toLittleEndian h n b.reverse = .ok b
      rw [toLittleEndian_big h hh, h2]

theorem converter_twice_witness :
    (3 : Nat) ≤ 8 ∧ ([7, 8, 9] : List Byte).length = 3 ∧
    (toBigEndian littleHost ((3 : Nat) : Int) [7, 8, 9] >>= toBigEndian littleHost ((3 : Nat) : Int))
      = .ok [7, 8, 9] ∧
    (toLittleEndian littleHost ((3 : Nat) : Int) [7, 8, 9]
      >>= toLittleEndian littleHost ((3 : Nat) : Int)) = .ok [7, 8, 9] :=
  ⟨by decide, rfl, converter_twice littleHost 3 [7, 8, 9] (by decide) rfl⟩

/-- C7 as stated fails: on a little-endian host with a 4-byte `int`,
`litEndianInt(bigEndianInt(0x01020304))` is `0x04030201`, not `0x01020304`. -/
theorem litEndianInt_bigEndianInt_counterexample :
    (16909060 : Nat) < 256 ^ 4 ∧
    (bigEndianInt littleHost 16909060 >>= litEndianInt littleHost) = .ok 67305985 ∧
    (bigEndianInt littleHost 16909060 >>= litEndianInt littleHost) ≠ .ok 16909060 := by
  decide

/-- C7, amended: for every value `v` of each supported type and either host order,
exactly one of the two wrappers reverses, so `litEndian_T(bigEndian_T(v))` is the
byte-reversed `v`: its byte representation is the reversed representation of `v`,
and it equals `v` exactly when the bytes of `v` read the same in both
directions. -/
theorem litEndian_bigEndian_reversed (h : Host) (hs : h.usualSizes) (w : Nat)
    (big lit : Nat → Except Fault Nat) (hp : (w, big, lit) ∈ typedWrappers h)
    (v : Nat) (hv : v < 256 ^ w) :
    ReversedRepr h w v (big v >>= lit) ∧
    ((big v >>= lit) = .ok v ↔ (objectRepr h w v).reverse = objectRepr h w v) := by
  obtain ⟨hw, rfl, rfl⟩ := typedWrappers_shape h hs w big lit hp
  have hcap : w ≤ scratchCapacity := by simp only [scratchCapacity]; omega
  have hrev := litEndianScalar_bigEndianScalar h w v hcap hv
  exact ⟨hrev, reversedRepr_eq_iff h w v _ hrev hv⟩

theorem litEndian_bigEndian_reversed_witness :
    bigHost.usualSizes ∧
    (2, bigEndianShort bigHost, litEndianShort bigHost) ∈ typedWrappers bigHost ∧
    (43981 : Nat) < 256 ^ 2 ∧
    ReversedRepr bigHost 2 43981 (bigEndianShort bigHost 43981 >>= litEndianShort bigHost) :=
  have hs : bigHost.usualSizes := ⟨rfl, rfl, rfl, rfl, rfl⟩
  have hp : (2, bigEndianShort bigHost, litEndianShort bigHost) ∈ typedWrappers bigHost :=
    List.mem_cons_of_mem _ (List.mem_cons_self _ _)
  ⟨hs, hp, by decide, (litEndian_bigEndian_reversed bigHost hs 2 _ _ hp 43981 (by decide)).1⟩

/-- C8 as stated fails: the request to reverse 9 bytes is not rejected; the call
completes without any error and the 9-byte buffer comes back reversed, hence
changed. -/
theorem reverseEndianness_nine_counterexample :
    (8 : Int) < 9 ∧ ([1, 2, 3, 4, 5, 6, 7, 8, 9] : List Byte).length = 9 ∧
    reverseEndianness 9 [1, 2, 3, 4, 5, 6, 7, 8, 9] = .ok [9, 8, 7, 6, 5, 4, 3, 2, 1] ∧
    ([9, 8, 7, 6, 5, 4, 3, 2, 1] : List Byte) ≠ [1, 2, 3, 4, 5, 6, 7, 8, 9] := by
  decide

/-- C8, amended: a request to reverse a byte length greater than 8 and at most 32
is not rejected: for every size `n` with `8 < n ≤ 32` and buffer `b` of `n` bytes,
`reverseEndianness(n, b)` completes without signalling anything and leaves `b`
byte-reversed, as for `n ≤ 8`. -/
theorem reverseEndianness_wide (n : Nat) (b : List Byte) (h8 : 8 < n) (h32 : n ≤ 32)
    (hb : b.length = n) : reverseEndianness (n : Int) b = .ok b.reverse :=
  reverseEndianness_exact n b hb (by simp only [scratchCapacity]; omega)

theorem reverseEndianness_wide_witness :
    (8 : Nat) < 12 ∧ (12 : Nat) ≤ 32 ∧
    ([0, 1, 2, 3, 4, 5, 6, 7, 8, 9, 10, 11] : List Byte).length = 12 ∧
    reverseEndianness ((12 : Nat) : Int) [0, 1, 2, 3, 4, 5, 6, 7, 8, 9, 10, 11]
      = .ok ([0, 1, 2, 3, 4, 5, 6, 7, 8, 9, 10, 11] : List Byte).reverse :=
  ⟨by decide, by decide, rfl,
    reverseEndianness_wide 12 [0, 1, 2, 3, 4, 5, 6, 7, 8, 9, 10, 11] (by decide) (by decide) rfl⟩

/-- C9: for every size `n ≤ 8`, buffer `b` of `n` bytes and either host order,
`reverseEndianness`, `toBigEndian` and `toLittleEndian` complete with a buffer of
the same length as `b` that is a permutation of `b`: only the order of the bytes
changes. -/
theorem conversion_perm (h : Host) (n : Nat) (b : List Byte) (hn : n ≤ 8)
    (hb : b.length = n) :
    (∃ r, reverseEndianness (n : Int) b = .ok r ∧ r.length = b.length ∧ r.Perm b) ∧
    (∃ r, toBigEndian h n b = .ok r ∧ r.length = b.length ∧ r.Perm b) ∧
    (∃ r, toLittleEndian h n b = .ok r ∧ r.length = b.length ∧ r.Perm b) := by
  have hrev := reverseEndianness_exact n b hb (by simp only [scratchCapacity]; omega)
  have hR : ∃ r, reverseEndianness (n : Int) b = .ok r ∧ r.length = b.length ∧ r.Perm b :=
    ⟨b.reverse, hrev, List.length_reverse b, List.reverse_perm b⟩
  have hI : ∃ r, (Except.ok b : Except Fault (List Byte)) = .ok r ∧ r.length = b.length ∧
      r.Perm b := ⟨b, rfl, rfl, List.Perm.refl b⟩
  refine ⟨hR, ?_, ?_⟩
  · cases hh : h.bigEndian
    · rw [toBigEndian_little h hh]
      exact hR
    · rw [toBigEndian_big h hh]
      exact hI
  · cases hh : h.bigEndian
    · rw [toLittleEndian_little h hh]
      exact hI
    · rw [toLittleEndian_big h hh]
      exact hR

theorem conversion_perm_witness :
    (4 : Nat) ≤ 8 ∧ ([5, 5, 6, 7] : List Byte).length = 4 ∧
    ∃ r, toLittleEndian bigHost ((4 : Nat) : Int) [5, 5, 6, 7] = .ok r ∧
      r.length = ([5, 5, 6, 7] : List Byte).length ∧ r.Perm [5, 5, 6, 7] :=
  ⟨by decide, rfl, (conversion_perm bigHost 4 [5, 5, 6, 7] (by decide) rfl).2.2⟩

/-- C10: single-byte identity: for every 1-byte value `c` and either host order,
`bigEndianChar(c) = c` and `litEndianChar(c) = c`, and `reverseEndianness`,
`toBigEndian` and `toLittleEndian` with size 1 leave the one-byte buffer
unchanged. -/
theorem single_byte_identity (h : Host) (c : Byte) :
    bigEndianChar h c.val = .ok c.val ∧ litEndianChar h c.val = .ok c.val ∧
    reverseEndianness 1 [c] = .ok [c] ∧ toBigEndian h 1 [c] = .ok [c] ∧
    toLittleEndian h 1 [c] = .ok [c] := by
  have hrev : reverseEndianness 1 [c] = .ok [c] := by
    have := reverseEndianness_exact 1 [c] rfl (by decide)
    simpa using this
  have hbig : toBigEndian h 1 [c] = .ok [c] := by
    cases hh : h.bigEndian
    · rw [toBigEndian_little h hh, hrev]
    · rw [toBigEndian_big h hh]
  have hlit : toLittleEndian h 1 [c] = .ok [c] := by
    cases hh : h.bigEndian
    · rw [toLittleEndian_little h hh]
    · rw [toLittleEndian_big h hh, hrev]
  have hrepr : objectRepr h 1 c.val = [c] := by
    have := objectRepr_objectValue h [c]
    have hval : objectValue h [c] = c.val := by
      unfold objectValue
      split <;> simp [valueLE]
    rwa [hval] at this
  have hval : objectValue h [c] = c.val := by
    unfold objectValue
    split <;> simp [valueLE]
  refine ⟨?_, ?_, hrev, hbig, hlit⟩
  · simp only [bigEndianChar, bigEndianScalar, hrepr, Nat.cast_one, hbig]
    show Except.ok (objectValue h [c]) = Except.ok c.val
    rw [hval]
  · simp only [litEndianChar, litEndianScalar, hrepr, Nat.cast_one, hlit]
    show Except.ok (objectValue h [c]) = Except.ok c.val
    rw [hval]

/-- C11: float bit-pattern preservation: on a host with 8-byte `double` and 4-byte
`float`, of either byte order, for every 64-bit pattern `d` (NaN and infinity
encodings included) `bigEndianDouble(bigEndianDouble(d))` and
`litEndianDouble(litEndianDouble(d))` have exactly the bit pattern `d`, and for
every 32-bit pattern `f` the same holds of `bigEndianFloat` and
`litEndianFloat`. -/
theorem float_bit_pattern_preserved (h : Host) (hs : h.usualSizes) (d f : Nat)
    (hd : d < 2 ^ 64) (hf : f < 2 ^ 32) :
    (bigEndianDouble h d >>= bigEndianDouble h) = .ok d ∧
    (litEndianDouble h d >>= litEndianDouble h) = .ok d ∧
    (bigEndianFloat h f >>= bigEndianFloat h) = .ok f ∧
    (litEndianFloat h f >>= litEndianFloat h) = .ok f := by
  obtain ⟨_, _, _, h4, h8⟩ := hs
  have hd8 : d < 256 ^ h.sizeofDouble := by rw [h8]; norm_num; omega
  have hf4 : f < 256 ^ h.sizeofFloat := by rw [h4]; norm_num; omega
  have hc8 : h.sizeofDouble ≤ scratchCapacity := by simp only [scratchCapacity]; omega
  have hc4 : h.sizeofFloat ≤ scratchCapacity := by simp only [scratchCapacity]; omega
  exact ⟨bigEndianScalar_twice h _ d hc8 hd8, litEndianScalar_twice h _ d hc8 hd8,
    bigEndianScalar_twice h _ f hc4 hf4, litEndianScalar_twice h _ f hc4 hf4⟩

theorem float_bit_pattern_preserved_witness :
    littleHost.usualSizes ∧ (9218868437227405313 : Nat) < 2 ^ 64 ∧ (2139095040 : Nat) < 2 ^ 32 ∧
    (bigEndianDouble littleHost 9218868437227405313 >>= bigEndianDouble littleHost)
      = .ok 9218868437227405313 ∧
    (litEndianDouble littleHost 9218868437227405313 >>= litEndianDouble littleHost)
      = .ok 9218868437227405313 ∧
    (bigEndianFloat littleHost 2139095040 >>= bigEndianFloat littleHost) = .ok 2139095040 ∧
    (litEndianFloat littleHost 2139095040 >>= litEndianFloat littleHost) = .ok 2139095040 :=
  have hs : littleHost.usualSizes := ⟨rfl, rfl, rfl, rfl, rfl⟩
  ⟨hs, by decide, by decide,
    float_bit_pattern_preserved littleHost hs 9218868437227405313 2139095040
      (by decide) (by decide)⟩

/-- C12: concrete 32-bit case: on a little-endian host with a 4-byte `int`,
`bigEndianInt(0x01020304)`, whose argument lies in memory as `04 03 02 01`,
returns the value whose in-memory byte sequence is `01 02 03 04`, which read in
host order is the `int` `0x04030201`. -/
theorem bigEndianInt_concrete (h : Host) (hh : h.bigEndian = false) (h4 : h.sizeofInt = 4) :
    objectRepr h 4 0x01020304 = [4, 3, 2, 1] ∧
    bigEndianInt h 0x01020304 = .ok 0x04030201 ∧
    objectRepr h 4 0x04030201 = [1, 2, 3, 4] := by
  have hin : objectRepr h 4 0x01020304 = [4, 3, 2, 1] := by
    simp only [objectRepr, hh]
    decide
  have hout : objectRepr h 4 0x04030201 = [1, 2, 3, 4] := by
    simp only [objectRepr, hh]
    decide
  have hrev : reverseEndianness ((4 : Nat) : Int) [4, 3, 2, 1] = .ok [1, 2, 3, 4] := by decide
  refine ⟨hin, ?_, hout⟩
  simp only [bigEndianInt, bigEndianScalar, h4, hin, toBigEndian_little h hh, hrev]
  show Except.ok (objectValue h [1, 2, 3, 4]) = Except.ok 0x04030201
  simp only [objectValue, hh]
  decide

theorem bigEndianInt_concrete_witness :
    littleHost.bigEndian = false ∧ littleHost.sizeofInt = 4 ∧
    bigEndianInt littleHost 0x01020304 = .ok 0x04030201 ∧
    objectRepr littleHost 4 0x04030201 = [1, 2, 3, 4] :=
  ⟨rfl, rfl, (bigEndianInt_concrete littleHost rfl rfl).2⟩

/-- C13: concrete 16-bit case: on a big-endian host with a 2-byte `short`,
`litEndianShort` applied to the value with bit pattern `0xABCD`, which lies in
memory as `AB CD`, returns a value whose in-memory byte sequence is `CD AB`. -/
theorem litEndianShort_concrete (h : Host) (hh : h.bigEndian = true) (h2 : h.sizeofShort = 2) :
    objectRepr h 2 0xABCD = [0xAB, 0xCD] ∧
    ∃ r, litEndianShort h 0xABCD = .ok r ∧ objectRepr h 2 r = [0xCD, 0xAB] := by
  have hin : objectRepr h 2 0xABCD = [0xAB, 0xCD] := by
    simp only [objectRepr, hh]
    decide
  have hout : objectRepr h 2 0xCDAB = [0xCD, 0xAB] := by
    simp only [objectRepr, hh]
    decide
  have hrev : reverseEndianness ((2 : Nat) : Int) [0xAB, 0xCD] = .ok [0xCD, 0xAB] := by decide
  refine ⟨hin, 0xCDAB, ?_, hout⟩
  simp only [litEndianShort, litEndianScalar, h2, hin, toLittleEndian_big h hh, hrev]
  show Except.ok (objectValue h [0xCD, 0xAB]) = Except.ok 0xCDAB
  simp only [objectValue, hh]
  decide

theorem litEndianShort_concrete_witness :
    bigHost.bigEndian = true ∧ bigHost.sizeofShort = 2 ∧
    ∃ r, litEndianShort bigHost 0xABCD = .ok r ∧ objectRepr bigHost 2 r = [0xCD, 0xAB] :=
  ⟨rfl, rfl, (litEndianShort_concrete bigHost rfl rfl).2⟩

/-- C14: the copy-through-scratch reversal of `reverseEndianness` agrees with the
in-place midpoint-swap rule: for every `n ≤ 8`, odd or even, and buffer `b` of `n`
bytes, the call completes with the buffer obtained by exchanging positions `i` and
`n-1-i` for every `i < n / 2`; the middle byte of an odd-length buffer stays where
it is. -/
theorem reverseEndianness_refines_midpointSwap (n : Nat) (b : List Byte) (hn : n ≤ 8)
    (hb : b.length = n) :
    reverseEndianness (n : Int) b = .ok (midpointSwap n b) ∧
    (n % 2 = 1 → (midpointSwap n b)[n / 2]? = b[n / 2]?) := by
  have hrev := reverseEndianness_exact n b hb (by simp only [scratchCapacity]; omega)
  have hmid := midpointSwap_eq_reverse n b hb
  refine ⟨by rw [hrev, hmid], fun hodd => ?_⟩
  rw [hmid, List.getElem?_reverse (by omega), hb]
  congr 1
  omega

theorem reverseEndianness_refines_midpointSwap_witness :
    (5 : Nat) ≤ 8 ∧ ([1, 2, 3, 4, 5] : List Byte).length = 5 ∧
    reverseEndianness ((5 : Nat) : Int) [1, 2, 3, 4, 5] = .ok (midpointSwap 5 [1, 2, 3, 4, 5]) ∧
    midpointSwap 5 [1, 2, 3, 4, 5] = [5, 4, 3, 2, 1] :=
  ⟨by decide, rfl,
    (reverseEndianness_refines_midpointSwap 5 [1, 2, 3, 4, 5] (by decide) rfl).1, by decide⟩

/-- C15: the accesses of `reverseEndianness` to `char result[32]` are all in
bounds exactly when `size ≤ 32`: for every size `n ≤ 32` (sizes 9..32 included)
and buffer `b` of `n` bytes every iteration of the first loop stores inside the
array and the call completes with `b` reversed, while for every size `n ≥ 33` the
first loop, after 32 good iterations, stores to `result[32]`, outside the
array. -/
theorem scratch_access_bounds (n : Nat) (b : List Byte) (hb : b.length = n) :
    (n ≤ 32 → reverseEndianness (n : Int) b = .ok b.reverse ∧
      ∀ k, k ≤ n → ∃ r, copyOut (n : Int) b k = .ok r ∧ r.length = scratchCapacity) ∧
    (33 ≤ n → (∃ r, copyOut (n : Int) b 32 = .ok r) ∧
      copyOut (n : Int) b 33 = .error (.scratchOutOfBounds 32) ∧
      reverseEndianness (n : Int) b = .error (.scratchOutOfBounds 32)) ∧
    ((∀ i, reverseEndianness (n : Int) b ≠ .error (.scratchOutOfBounds i)) ↔ n ≤ 32) := by
  have hle : n ≤ b.length := by omega
  have hsmall : n ≤ 32 → reverseEndianness (n : Int) b = .ok b.reverse := fun h32 =>
    reverseEndianness_exact n b hb (by simp only [scratchCapacity]; omega)
  refine ⟨fun h32 => ⟨hsmall h32, fun k hk => ?_⟩, fun h33 => ?_, ?_, ?_⟩
  · obtain ⟨r, hr, hlen, _⟩ := copyOut_ok n b hle k hk (by simp only [scratchCapacity]; omega)
    exact ⟨r, hr, hlen⟩
  · exact ⟨(copyOut_overflow n b hle h33).1, (copyOut_overflow n b hle h33).2,
      reverseEndianness_overflow n b hle h33⟩
  · intro hno
    by_contra hgt
    exact hno 32 (reverseEndianness_overflow n b hle (by omega))
  · intro h32 i hi
    rw [hsmall h32] at hi
    cases hi

theorem scratch_access_bounds_witness :
    (List.replicate 33 (7 : Byte)).length = 33 ∧
    copyOut ((33 : Nat) : Int) (List.replicate 33 7) 33 = .error (.scratchOutOfBounds 32) ∧
    reverseEndianness ((33 : Nat) : Int) (List.replicate 33 7) = .error (.scratchOutOfBounds 32) :=
  ⟨rfl, ((scratch_access_bounds 33 (List.replicate 33 7) rfl).2.1 (by decide)).2⟩

/-- C16: on every host order and for every size `n ≤ 8` and buffer `b` of `n`
bytes, exactly one of the two directional converters reverses, so
`toLittleEndian(n, toBigEndian(n, b))` and `toBigEndian(n, toLittleEndian(n, b))`
both equal `reverseEndianness(n, b)`, the reversed buffer. -/
theorem converters_compose_to_reverse (h : Host) (n : Nat) (b : List Byte) (hn : n ≤ 8)
    (hb : b.length = n) :
    (toBigEndian h n b >>= toLittleEndian h n) = reverseEndianness n b ∧
    (toLittleEndian h n b >>= toBigEndian h n) = reverseEndianness n b ∧
    reverseEndianness (n : Int) b = .ok b.reverse ∧
    ((toBigEndian h n b = reverseEndianness n b ∧ toLittleEndian h n b = .ok b) ∨
     (toBigEndian h n b = .ok b ∧ toLittleEndian h n b = reverseEndianness n b)) := by
  have hrev := reverseEndianness_exact n b hb (by simp only [scratchCapacity]; omega)
  cases hh : h.bigEndian
  · refine ⟨?_, ?_, hrev, Or.inl ⟨toBigEndian_little h hh n b, toLittleEndian_little h hh n b⟩⟩
    · rw [toBigEndian_little h hh, hrev]
      show toLittleEndian h n b.reverse = .ok b.reverse
      rw [toLittleEndian_little h hh]
    · rw [toLittleEndian_little h hh]
      show toBigEndian h n b = reverseEndianness n b
      rw [toBigEndian_little h hh]
  · refine ⟨?_, ?_, hrev, Or.inr ⟨toBigEndian_big h hh n b, toLittleEndian_big h hh n b⟩⟩
    · rw [toBigEndian_big h hh]
      show toLittleEndian h n b = reverseEndianness n b
      rw [toLittleEndian_big h hh]
    · rw [toLittleEndian_big h hh, hrev]
      show toBigEndian h n b.reverse = .ok b.reverse
      rw [toBigEndian_big h hh]

theorem converters_compose_to_reverse_witness :
    (3 : Nat) ≤ 8 ∧ ([1, 2, 3] : List Byte).length = 3 ∧
    (toBigEndian bigHost ((3 : Nat) : Int) [1, 2, 3] >>= toLittleEndian bigHost ((3 : Nat) : Int))
      = reverseEndianness ((3 : Nat) : Int) [1, 2, 3] ∧
    (toLittleEndian bigHost ((3 : Nat) : Int) [1, 2, 3] >>= toBigEndian bigHost ((3 : Nat) : Int))
      = reverseEndianness ((3 : Nat) : Int) [1, 2, 3] ∧
    reverseEndianness ((3 : Nat) : Int) [1, 2, 3] = .ok [3, 2, 1] :=
  have hc := converters_compose_to_reverse bigHost 3 [1, 2, 3] (by decide) rfl
  ⟨by decide, rfl, hc.1, hc.2.1, hc.2.2.1⟩

/-- C17: `reverseEndianness`, and hence `toBigEndian` and `toLittleEndian`, only
touches the first `size` bytes of the memory it is given: for every size
`n ≤ 32` and every buffer of length `m ≥ n` the call completes, the buffer keeps
its length, and the bytes at positions `n..m-1` are unchanged. -/
theorem reverseEndianness_frame (h : Host) (n : Nat) (b : List Byte) (hn : n ≤ 32)
    (hm : n ≤ b.length) :
    (∃ r, reverseEndianness (n : Int) b = .ok r ∧ r.length = b.length ∧
      ∀ j, n ≤ j → r[j]? = b[j]?) ∧
    (∃ r, toBigEndian h n b = .ok r ∧ r.length = b.length ∧ ∀ j, n ≤ j → r[j]? = b[j]?) ∧
    (∃ r, toLittleEndian h n b = .ok r ∧ r.length = b.length ∧
      ∀ j, n ≤ j → r[j]? = b[j]?) := by
  have hR := reverseEndianness_frame_aux n b hn hm
  have hI : ∃ r, (Except.ok b : Except Fault (List Byte)) = .ok r ∧ r.length = b.length ∧
      ∀ j, n ≤ j → r[j]? = b[j]? := ⟨b, rfl, rfl, fun _ _ => rfl⟩
  refine ⟨hR, ?_, ?_⟩
  · cases hh : h.bigEndian
    · rw [toBigEndian_little h hh]
      exact hR
    · rw [toBigEndian_big h hh]
      exact hI
  · cases hh : h.bigEndian
    · rw [toLittleEndian_little h hh]
      exact hI
    · rw [toLittleEndian_big h hh]
      exact hR

theorem reverseEndianness_frame_witness :
    (2 : Nat) ≤ 32 ∧ (2 : Nat) ≤ ([1, 2, 3, 4, 5] : List Byte).length ∧
    reverseEndianness ((2 : Nat) : Int) [1, 2, 3, 4, 5] = .ok [2, 1, 3, 4, 5] ∧
    ∃ r, toBigEndian littleHost ((2 : Nat) : Int) [1, 2, 3, 4, 5] = .ok r ∧
      r.length = ([1, 2, 3, 4, 5] : List Byte).length ∧
      ∀ j, 2 ≤ j → r[j]? = ([1, 2, 3, 4, 5] : List Byte)[j]? :=
  ⟨by decide, by decide, by decide,
    (reverseEndianness_frame littleHost 2 [1, 2, 3, 4, 5] (by decide) (by decide)).2.1⟩

/-- C18: for every size `≤ 0` (zero or negative) and every buffer, each loop of
`reverseEndianness` runs zero times, so no cell of the scratch array is written
and no byte of the buffer is read or written (the call completes even on an empty
buffer), and `reverseEndianness`, `toBigEndian` and `toLittleEndian` complete
with the buffer unchanged. -/
theorem nonpositive_size_noop (h : Host) (size : Int) (b : List Byte) (hs : size ≤ 0) :
    size.toNat = 0 ∧ copyOut size b size.toNat = .ok freshScratch ∧
    copyBack freshScratch b size.toNat = .ok b ∧
    reverseEndianness size b = .ok b ∧ toBigEndian h size b = .ok b ∧
    toLittleEndian h size b = .ok b := by
  have h0 : size.toNat = 0 := Int.toNat_of_nonpos hs
  have hrev : reverseEndianness size b = .ok b := by
    simp only [reverseEndianness, h0, copyOut]
    rfl
  refine ⟨h0, by rw [h0]; rfl, by rw [h0]; rfl, hrev, ?_, ?_⟩
  · cases hh : h.bigEndian
    · rw [toBigEndian_little h hh, hrev]
    · rw [toBigEndian_big h hh]
  · cases hh : h.bigEndian
    · rw [toLittleEndian_little h hh]
    · rw [toLittleEndian_big h hh, hrev]

theorem nonpositive_size_noop_witness :
    (-5 : Int) ≤ 0 ∧ reverseEndianness (-5) [] = .ok [] ∧
    toBigEndian littleHost (-5) [] = .ok [] ∧ toLittleEndian littleHost (-5) [] = .ok [] :=
  ⟨by decide, (nonpositive_size_noop littleHost (-5) [] (by decide)).2.2.2⟩

end Endianness
